import Mathlib

/-!
Verification development for the `conv.py` asset-migration script of
`bevy_animation_graph`.  The script rewrites `.ron` files with the regular
expression substitution

  pattern     = \(\s*name:\s*"([^"]+)",\s*ty:\s*"([^"]+)",\s*inner:\s*(\([^)]+\))
  replacement = (\n            name: "<g1>",\n            inner: \x7b\n                "<g2>": <g3>\n            \x7d

applied with Python `re.sub` semantics (leftmost, non-overlapping matches,
scanned left to right), and copies every `.ron`-named entry of a hardcoded
input directory into an output directory, transformed.

The pattern is embedded as a deterministic matcher: each greedy piece of the
pattern (`\s*`, `[^"]+`, `[^)]+`) is followed by a literal whose first
character the class cannot match (`n`, `t`, `i`, `(` are not whitespace; the
classes exclude `"` and `)` respectively), so maximal munch followed by the
literal is exactly the backtracking regular-expression semantics.
-/

set_option maxHeartbeats 1000000

namespace Conv

/-- Python's `\s` class for `str` patterns: the characters with the Unicode
White_Space-style set used by `re` (tab..CR, FS..US, space, NEL, NBSP and the
Unicode space separators). -/
def isPySpace (c : Char) : Bool :=
  let n := c.toNat
  decide ((0x9 ≤ n ∧ n ≤ 0xd) ∨ (0x1c ≤ n ∧ n ≤ 0x1f) ∨ n = 0x20 ∨ n = 0x85 ∨
    n = 0xa0 ∨ n = 0x1680 ∨ (0x2000 ≤ n ∧ n ≤ 0x200a) ∨ n = 0x2028 ∨
    n = 0x2029 ∨ n = 0x202f ∨ n = 0x205f ∨ n = 0x3000)

/-- Greedy `\s*`: drop the maximal run of whitespace. -/
def dropSpaces : List Char → List Char
  | [] => []
  | c :: cs => if isPySpace c then dropSpaces cs else c :: cs

/-- Match a literal piece of the pattern: consume exactly the characters of
`p` from the front of the text, or fail. -/
def stripLit : List Char → List Char → Option (List Char)
  | [], s => some s
  | _ :: _, [] => none
  | p :: ps, c :: cs => if c = p then stripLit ps cs else none

/-- Maximal run of characters different from `stop` (the `*` part of a
negated character class), together with the remaining text. -/
def takeUntil (stop : Char) : List Char → List Char × List Char
  | [] => ([], [])
  | c :: cs =>
    if c = stop then ([], c :: cs)
    else
      let r := takeUntil stop cs
      (c :: r.1, r.2)

/-- A negated character class with `+`: at least one character different from
`stop`, matched greedily (`[^"]+`, `[^)]+`). -/
def matchPlus (stop : Char) : List Char → Option (List Char × List Char)
  | [] => none
  | c :: cs =>
    if c = stop then none
    else
      let r := takeUntil stop cs
      some (c :: r.1, r.2)

/-- The three capture groups of a successful match of the pattern at a given
position, together with the text remaining after the match (Python's match
object: group 1 `name`, group 2 `ty`, group 3 `inner` - parentheses
included - and the text after `match.end()`). -/
structure NodeMatch where
  name : List Char
  ty : List Char
  inner : List Char
  rest : List Char
deriving DecidableEq

def nameKey : List Char := "name:".toList

def tyKey : List Char := "ty:".toList

def innerKey : List Char := "inner:".toList

/-- Anchored match of the pattern
`\(\s*name:\s*"([^"]+)",\s*ty:\s*"([^"]+)",\s*inner:\s*(\([^)]+\))`
at the start of `s`. -/
def matchAt (s : List Char) : Option NodeMatch :=
  (stripLit ['('] s).bind fun s1 =>
  (stripLit nameKey (dropSpaces s1)).bind fun s2 =>
  (stripLit ['"'] (dropSpaces s2)).bind fun s3 =>
  (matchPlus '"' s3).bind fun q1 =>
  (stripLit ['"', ','] q1.2).bind fun s4 =>
  (stripLit tyKey (dropSpaces s4)).bind fun s5 =>
  (stripLit ['"'] (dropSpaces s5)).bind fun s6 =>
  (matchPlus '"' s6).bind fun q2 =>
  (stripLit ['"', ','] q2.2).bind fun s7 =>
  (stripLit innerKey (dropSpaces s7)).bind fun s8 =>
  (stripLit ['('] (dropSpaces s8)).bind fun s9 =>
  (matchPlus ')' s9).bind fun q3 =>
  (stripLit [')'] q3.2).bind fun s10 =>
  some ⟨q1.1, q2.1, '(' :: q3.1 ++ [')'], s10⟩

/-- Fixed text of the replacement template before the `name` capture. -/
def tplA : List Char := "(\n            name: \"".toList

/-- Fixed text of the replacement template between `name` and `ty`. -/
def tplB : List Char := "\",\n            inner: \x7b\n                \"".toList

/-- Fixed text of the replacement template between `ty` and `inner`. -/
def tplC : List Char := "\": ".toList

/-- Fixed text of the replacement template after `inner`. -/
def tplD : List Char := "\n            \x7d".toList

/-- The `replace_node` callback: the f-string
`(\n name: "{name}",\n inner: \x7b\n "{ty}": {inner}\n \x7d`
(with the indentation of the source), interleaving the fixed template text
with the three captures. -/
def replaceNode (m : NodeMatch) : List Char :=
  tplA ++ m.name ++ tplB ++ m.ty ++ tplC ++ m.inner ++ tplD

/-- `re.sub` scanning, fuelled by the length of the text: at each position
try the pattern; on a match emit the replacement and resume right after the
match, otherwise keep the character and move one position right.  The fuel is
only a termination device; `subScanF_eq` below shows it is
irrelevant whenever it is at least the length of the text. -/
def subScanF : Nat → List Char → List Char
  | 0, s => s
  | _ + 1, [] => []
  | n + 1, c :: cs =>
    match matchAt (c :: cs) with
    | some m => replaceNode m ++ subScanF n m.rest
    | none => c :: subScanF n cs

/-- The pure core of `transform_ron_file`:
`re.sub(pattern, replace_node, content)` on a list of characters. -/
def subScan (s : List Char) : List Char := subScanF s.length s

/-- `transform` on strings: read the text, substitute, return the result. -/
def transform (s : String) : String := (subScan s.toList).asString

/-- Whether some position of `s` starts a match of the pattern, i.e. whether
`s` contains a substring matched by the pattern. -/
def hasMatch : List Char → Bool
  | [] => false
  | c :: cs => (matchAt (c :: cs)).isSome || hasMatch cs

/-- One segment of the decomposition of a scanned text: the unmatched text
`pre` before a match, the matched span `span`, and the match data `m`. -/
structure Seg where
  pre : List Char
  span : List Char
  m : NodeMatch

/-- Decomposition of the text driven by the same scan as `subScanF`:
returns the list of (unmatched text, matched span, match) segments and the
unmatched tail after the last match. -/
def scanDecompF : Nat → List Char → List Seg × List Char
  | 0, s => ([], s)
  | _ + 1, [] => ([], [])
  | n + 1, c :: cs =>
    match matchAt (c :: cs) with
    | some m =>
      let r := scanDecompF n m.rest
      (⟨[], (c :: cs).take ((c :: cs).length - m.rest.length), m⟩ :: r.1, r.2)
    | none =>
      let r := scanDecompF n cs
      match r.1 with
      | [] => ([], c :: r.2)
      | g :: gs => (⟨c :: g.pre, g.span, g.m⟩ :: gs, r.2)

def scanDecomp (s : List Char) : List Seg × List Char := scanDecompF s.length s

/-- I/O failures the script can hit while walking the directory. -/
inductive IOErr
  | fileNotFound
  | isADirectory
deriving DecidableEq

/-- One entry of the input directory as `os.listdir` reports it: a regular
file with its content, a subdirectory, or a symbolic link resolving to a
regular file with the given content. -/
inductive DirEntry
  | file (name content : String)
  | subdir (name : String)
  | symlinkToFile (name content : String)
deriving DecidableEq

def DirEntry.name : DirEntry → String
  | .file n _ => n
  | .subdir n => n
  | .symlinkToFile n _ => n

/-- `open(path, 'r')` followed by `f.read()`: succeeds on files and on
symbolic links to files (links are followed), raises `IsADirectoryError` on a
directory. -/
def readEntry : DirEntry → Except IOErr String
  | .file _ c => .ok c
  | .subdir _ => .error .isADirectory
  | .symlinkToFile _ c => .ok c

/-- Python `str.endswith`. -/
def endswith (s suf : String) : Bool := List.isSuffixOf suf.toList s.toList

/-- The loop body of `process_directory` over the listed entries: entries
whose name ends in `.ron` are read, transformed, written to the output
directory and reported on the console; the first I/O failure aborts the rest
of the loop.  Returns (written files, printed lines, error if any). -/
def processEntries : List DirEntry → List (String × String) × List String × Option IOErr
  | [] => ([], [], none)
  | e :: es =>
    if endswith e.name ".ron" then
      match readEntry e with
      | .error err => ([], [], some err)
      | .ok content =>
        let r := processEntries es
        ((e.name, transform content) :: r.1,
         ("Transformed " ++ e.name) :: r.2.1, r.2.2)
    else processEntries es

/-- Observable outcome of a run of `process_directory`: whether the output
directory exists afterwards, whether this run created it, the files written
to it, the console lines printed, and the error that aborted the run (if
any). -/
structure FsResult where
  outputDirExists : Bool
  created : Bool
  outputs : List (String × String)
  printed : List String
  err : Option IOErr
deriving DecidableEq

/-- `process_directory(input_dir, output_dir)`: first `os.makedirs` the
output directory when it does not exist yet, then `os.listdir` the input
directory (raising `FileNotFoundError` when it is absent, modelled by
`inputDir = none`) and run the loop over its entries. -/
def process_directory (inputDir : Option (List DirEntry)) (outDirExists : Bool) :
    FsResult :=
  let created := !outDirExists
  match inputDir with
  | none => ⟨true, created, [], [], some .fileNotFound⟩
  | some entries =>
    let r := processEntries entries
    ⟨true, created, r.1, r.2.1, r.2.2⟩

/-- The `__main__` entry point: run `process_directory` and, when it did not
raise, print the final completion line. -/
def mainRun (inputDir : Option (List DirEntry)) (outDirExists : Bool) : FsResult :=
  let r := process_directory inputDir outDirExists
  match r.err with
  | some _ => r
  | none => { r with printed := r.printed ++ ["Transformation complete."] }

/-- A well-formed old-style fragment, written with explicit whitespace slots:
`(` w1 `name:` w2 `"` nm `",` w3 `ty:` w4 `"` ty `",` w5 `inner:` w6 `(` body `)`
followed by the arbitrary text `tail`.  The six slots are exactly the `\s*`
positions of the pattern. -/
def buildFragment (w1 w2 w3 w4 w5 w6 nm ty body tail : List Char) : List Char :=
  '(' :: (w1 ++ (nameKey ++ (w2 ++ ('"' :: (nm ++ ('"' :: (',' :: (w3 ++ (tyKey ++
    (w4 ++ ('"' :: (ty ++ ('"' :: (',' :: (w5 ++ (innerKey ++ (w6 ++ ('(' ::
    (body ++ (')' :: tail))))))))))))))))))))

/-! ### Basic lemmas about the matcher steps -/

theorem stripLit_sub : ∀ (p s r : List Char), stripLit p s = some r → r <:+ s := by
  intro p
  induction p with
  | nil =>
    intro s r h
    cases h
    exact List.suffix_rfl
  | cons a ps ih =>
    intro s r h
    cases s with
    | nil => cases h
    | cons c cs =>
      simp only [stripLit] at h
      split at h
      · exact (ih cs r h).trans (List.suffix_cons c cs)
      · cases h

theorem stripLit_len : ∀ (p s r : List Char), stripLit p s = some r →
    r.length + p.length = s.length := by
  intro p
  induction p with
  | nil =>
    intro s r h
    cases h
    simp
  | cons a ps ih =>
    intro s r h
    cases s with
    | nil => cases h
    | cons c cs =>
      simp only [stripLit] at h
      split at h
      · have := ih cs r h
        simp only [List.length_cons]
        omega
      · cases h

theorem stripLit_self : ∀ (p r : List Char), stripLit p (p ++ r) = some r := by
  intro p
  induction p with
  | nil => intro r; rfl
  | cons a ps ih => intro r; simp [stripLit, ih]

theorem dropSpaces_sub : ∀ s : List Char, dropSpaces s <:+ s := by
  intro s
  induction s with
  | nil => exact List.suffix_rfl
  | cons c cs ih =>
    cases h : isPySpace c with
    | true =>
      simp only [dropSpaces, h, if_pos]
      exact ih.trans (List.suffix_cons c cs)
    | false => simp [dropSpaces, h]

theorem dropSpaces_spaces : ∀ (w r : List Char), (∀ c ∈ w, isPySpace c = true) →
    dropSpaces (w ++ r) = dropSpaces r := by
  intro w
  induction w with
  | nil => intro r _; rfl
  | cons a t ih =>
    intro r hw
    have ha : isPySpace a = true := hw a (by simp)
    simp only [List.cons_append, dropSpaces, ha, if_pos]
    exact ih r fun c hc => hw c (by simp [hc])

theorem takeUntil_sub : ∀ (stop : Char) (s : List Char), (takeUntil stop s).2 <:+ s := by
  intro stop s
  induction s with
  | nil => exact List.suffix_rfl
  | cons c cs ih =>
    simp only [takeUntil]
    split
    · exact List.suffix_rfl
    · exact ih.trans (List.suffix_cons c cs)

theorem takeUntil_no_stop : ∀ (stop : Char) (s : List Char),
    ∀ c ∈ (takeUntil stop s).1, c ≠ stop := by
  intro stop s
  induction s with
  | nil => intro c hc; cases hc
  | cons a cs ih =>
    intro c hc
    simp only [takeUntil] at hc
    split at hc
    · cases hc
    · rcases List.mem_cons.mp hc with h | h
      · subst h; assumption
      · exact ih c h

theorem takeUntil_app : ∀ (stop : Char) (x r : List Char), (∀ c ∈ x, c ≠ stop) →
    takeUntil stop (x ++ stop :: r) = (x, stop :: r) := by
  intro stop x
  induction x with
  | nil => intro r _; simp [takeUntil]
  | cons a t ih =>
    intro r hx
    have ha : a ≠ stop := hx a (by simp)
    simp [takeUntil, ha, ih r fun c hc => hx c (by simp [hc])]

theorem matchPlus_sub : ∀ (stop : Char) (s : List Char) (q : List Char × List Char),
    matchPlus stop s = some q → q.2 <:+ s := by
  intro stop s q h
  cases s with
  | nil => cases h
  | cons c cs =>
    simp only [matchPlus] at h
    split at h
    · cases h
    · cases h
      exact (takeUntil_sub stop cs).trans (List.suffix_cons c cs)

theorem matchPlus_ne : ∀ (stop : Char) (s : List Char) (q : List Char × List Char),
    matchPlus stop s = some q → q.1 ≠ [] ∧ ∀ c ∈ q.1, c ≠ stop := by
  intro stop s q h
  cases s with
  | nil => cases h
  | cons c cs =>
    simp only [matchPlus] at h
    split at h
    · cases h
    · cases h
      refine ⟨by simp, ?_⟩
      intro c' hc'
      rcases List.mem_cons.mp hc' with h' | h'
      · subst h'; assumption
      · exact takeUntil_no_stop stop cs c' h'

theorem matchPlus_app : ∀ (stop : Char) (x r : List Char), x ≠ [] →
    (∀ c ∈ x, c ≠ stop) → matchPlus stop (x ++ stop :: r) = some (x, stop :: r) := by
  intro stop x r hx hq
  cases x with
  | nil => cases hx rfl
  | cons a t =>
    have ha : a ≠ stop := hq a (by simp)
    simp [matchPlus, ha, takeUntil_app stop t r fun c hc => hq c (by simp [hc])]

/-! ### The specification of an anchored match -/

theorem matchAt_spec {s : List Char} {m : NodeMatch} (h : matchAt s = some m) :
    m.rest <:+ s ∧ m.rest.length < s.length ∧
    m.name ≠ [] ∧ (∀ c ∈ m.name, c ≠ '"') ∧
    m.ty ≠ [] ∧ (∀ c ∈ m.ty, c ≠ '"') ∧
    ∃ body, body ≠ [] ∧ (∀ c ∈ body, c ≠ ')') ∧ m.inner = '(' :: body ++ [')'] := by
  simp only [matchAt, Option.bind_eq_some, Option.some.injEq] at h
  obtain ⟨s1, h1, s2, h2, s3, h3, q1, h4, s4, h5, s5, h6, s6, h7, q2, h8, s7, h9,
    s8, h10, s9, h11, q3, h12, s10, h13, hm⟩ := h
  subst hm
  have c13 : s10 <:+ q3.2 := stripLit_sub _ _ _ h13
  have c12 : q3.2 <:+ s9 := matchPlus_sub _ _ _ h12
  have c11 : s9 <:+ s8 := (stripLit_sub _ _ _ h11).trans (dropSpaces_sub s8)
  have c10 : s8 <:+ s7 := (stripLit_sub _ _ _ h10).trans (dropSpaces_sub s7)
  have c9 : s7 <:+ q2.2 := stripLit_sub _ _ _ h9
  have c8 : q2.2 <:+ s6 := matchPlus_sub _ _ _ h8
  have c7 : s6 <:+ s5 := (stripLit_sub _ _ _ h7).trans (dropSpaces_sub s5)
  have c6 : s5 <:+ s4 := (stripLit_sub _ _ _ h6).trans (dropSpaces_sub s4)
  have c5 : s4 <:+ q1.2 := stripLit_sub _ _ _ h5
  have c4 : q1.2 <:+ s3 := matchPlus_sub _ _ _ h4
  have c3 : s3 <:+ s2 := (stripLit_sub _ _ _ h3).trans (dropSpaces_sub s2)
  have c2 : s2 <:+ s1 := (stripLit_sub _ _ _ h2).trans (dropSpaces_sub s1)
  have hrest : s10 <:+ s1 :=
    (((((((((((c13.trans c12).trans c11).trans c10).trans c9).trans c8).trans
      c7).trans c6).trans c5).trans c4).trans c3).trans c2)
  have hlen1 : s1.length + 1 = s.length := stripLit_len _ _ _ h1
  have hq1 := matchPlus_ne _ _ _ h4
  have hq2 := matchPlus_ne _ _ _ h8
  have hq3 := matchPlus_ne _ _ _ h12
  refine ⟨hrest.trans (stripLit_sub _ _ _ h1), ?_, hq1.1, hq1.2, hq2.1, hq2.2,
    q3.1, hq3.1, hq3.2, rfl⟩
  have := hrest.length_le
  show s10.length < s.length
  omega

theorem matchAt_none_of_head {c : Char} (u : List Char) (h : c ≠ '(') :
    matchAt (c :: u) = none := by
  simp [matchAt, stripLit, h]

theorem matchAt_span_append {s : List Char} {m : NodeMatch} (h : matchAt s = some m) :
    s.take (s.length - m.rest.length) ++ m.rest = s := by
  obtain ⟨t, ht⟩ := (matchAt_spec h).1
  have hl : s.length - m.rest.length = t.length := by
    rw [← ht, List.length_append]
    omega
  rw [hl, ← ht, List.take_left]

/-! ### The scan: fuel irrelevance and unfolding equations -/

theorem subScanF_eq (n : Nat) : ∀ s : List Char, s.length ≤ n → subScanF n s = subScan s := by
  induction n using Nat.strong_induction_on with
  | _ n ih =>
    intro s hs
    cases n with
    | zero =>
      have hnil : s = [] := List.eq_nil_of_length_eq_zero (Nat.le_zero.mp hs)
      subst hnil
      rfl
    | succ k =>
      cases s with
      | nil => rfl
      | cons c cs =>
        have hcs : cs.length ≤ k := by
          simp only [List.length_cons] at hs
          omega
        cases hm : matchAt (c :: cs) with
        | some m =>
          have hlt : m.rest.length < cs.length + 1 := by
            have := (matchAt_spec hm).2.1
            simpa using this
          have e1 : subScanF (k + 1) (c :: cs) = replaceNode m ++ subScanF k m.rest := by
            simp [subScanF, hm]
          have e2 : subScan (c :: cs) = replaceNode m ++ subScanF cs.length m.rest := by
            simp [subScan, subScanF, hm]
          rw [e1, e2, ih k (Nat.lt_succ_self k) m.rest (by omega)]
          rcases Nat.lt_or_ge cs.length (k + 1) with hck | hck
          · rw [ih cs.length hck m.rest (by omega)]
          · rw [ih cs.length (by omega) m.rest (by omega)]
        | none =>
          have e1 : subScanF (k + 1) (c :: cs) = c :: subScanF k cs := by
            simp [subScanF, hm]
          have e2 : subScan (c :: cs) = c :: subScan cs := by
            simp [subScan, subScanF, hm]
          rw [e1, e2, ih k (Nat.lt_succ_self k) cs hcs]

theorem subScan_nil : subScan [] = [] := rfl

theorem subScan_cons_some {c : Char} {cs : List Char} {m : NodeMatch}
    (hm : matchAt (c :: cs) = some m) :
    subScan (c :: cs) = replaceNode m ++ subScan m.rest := by
  have hlt : m.rest.length < cs.length + 1 := by
    have := (matchAt_spec hm).2.1
    simpa using this
  have e2 : subScan (c :: cs) = replaceNode m ++ subScanF cs.length m.rest := by
    simp [subScan, subScanF, hm]
  rw [e2, subScanF_eq cs.length m.rest (by omega)]

theorem subScan_cons_none {c : Char} {cs : List Char}
    (hm : matchAt (c :: cs) = none) :
    subScan (c :: cs) = c :: subScan cs := by
  simp [subScan, subScanF, hm]

theorem subScan_no_match : ∀ s : List Char, hasMatch s = false → subScan s = s := by
  intro s
  induction s with
  | nil => intro _; rfl
  | cons c cs ih =>
    intro h
    simp only [hasMatch, Bool.or_eq_false_iff] at h
    cases hm : matchAt (c :: cs) with
    | some m => rw [hm] at h; simp at h
    | none => rw [subScan_cons_none hm, ih h.2]

/-! ### The decomposition induced by the scan -/

theorem scan_spec : ∀ (n : Nat) (s : List Char), s.length ≤ n →
    (((scanDecompF n s).1.map fun g => g.pre ++ g.span).flatten ++ (scanDecompF n s).2 = s) ∧
    (((scanDecompF n s).1.map fun g => g.pre ++ replaceNode g.m).flatten ++
      (scanDecompF n s).2 = subScanF n s) ∧
    (∀ g ∈ (scanDecompF n s).1, ∃ r,
      matchAt (g.span ++ r) = some ⟨g.m.name, g.m.ty, g.m.inner, r⟩) := by
  intro n
  induction n with
  | zero =>
    intro s hs
    have hnil : s = [] := List.eq_nil_of_length_eq_zero (Nat.le_zero.mp hs)
    subst hnil
    refine ⟨rfl, rfl, ?_⟩
    intro g hg
    cases hg
  | succ k ih =>
    intro s hs
    cases s with
    | nil =>
      refine ⟨rfl, rfl, ?_⟩
      intro g hg
      cases hg
    | cons c cs =>
      have hcs : cs.length ≤ k := by
        simp only [List.length_cons] at hs
        omega
      cases hm : matchAt (c :: cs) with
      | some m =>
        have hml : m.rest.length < cs.length + 1 := by
          have := (matchAt_spec hm).2.1
          simpa using this
        obtain ⟨j1, j2, j3⟩ := ih m.rest (by omega)
        refine ⟨?_, ?_, ?_⟩
        · simp only [scanDecompF, hm, List.map_cons, List.flatten_cons, List.nil_append,
            List.append_assoc, j1]
          exact matchAt_span_append hm
        · simp only [scanDecompF, hm, List.map_cons, List.flatten_cons, List.nil_append,
            List.append_assoc, j2, subScanF]
        · intro g hg
          simp only [scanDecompF, hm] at hg
          rcases List.mem_cons.mp hg with h | h
          · subst h
            refine ⟨m.rest, ?_⟩
            show matchAt ((c :: cs).take ((c :: cs).length - m.rest.length) ++ m.rest) = _
            rw [matchAt_span_append hm, hm]
          · exact j3 g h
      | none =>
        obtain ⟨j1, j2, j3⟩ := ih cs hcs
        cases hsegs : (scanDecompF k cs).1 with
        | nil =>
          rw [hsegs] at j1 j2 j3
          simp only [List.map_nil, List.flatten_nil, List.nil_append] at j1 j2
          refine ⟨?_, ?_, ?_⟩
          · simp only [scanDecompF, hm, hsegs, List.map_nil, List.flatten_nil,
              List.nil_append, j1]
          · simp only [scanDecompF, hm, hsegs, List.map_nil, List.flatten_nil,
              List.nil_append, subScanF, j2]
          · intro g hg
            simp only [scanDecompF, hm, hsegs] at hg
            cases hg
        | cons g gs =>
          rw [hsegs] at j1 j2 j3
          simp only [List.map_cons, List.flatten_cons, List.append_assoc] at j1 j2
          refine ⟨?_, ?_, ?_⟩
          · simp only [scanDecompF, hm, hsegs, List.map_cons, List.flatten_cons,
              List.cons_append, List.append_assoc, j1]
          · simp only [scanDecompF, hm, hsegs, List.map_cons, List.flatten_cons,
              List.cons_append, List.append_assoc, j2, subScanF]
          · intro g' hg'
            simp only [scanDecompF, hm, hsegs] at hg'
            rcases List.mem_cons.mp hg' with h | h
            · subst h
              obtain ⟨r, hr⟩ := j3 g (List.mem_cons_self g gs)
              exact ⟨r, hr⟩
            · exact j3 g' (List.mem_cons_of_mem g h)

/-! ### Forward evaluation of the matcher on a well-formed fragment -/

theorem dropSpaces_nameKey (z : List Char) : dropSpaces (nameKey ++ z) = nameKey ++ z := rfl

theorem dropSpaces_tyKey (z : List Char) : dropSpaces (tyKey ++ z) = tyKey ++ z := rfl

theorem dropSpaces_innerKey (z : List Char) :
    dropSpaces (innerKey ++ z) = innerKey ++ z := rfl

theorem dropSpaces_quote (z : List Char) : dropSpaces ('"' :: z) = '"' :: z := rfl

theorem dropSpaces_open (z : List Char) : dropSpaces ('(' :: z) = '(' :: z := rfl

theorem stripLit_single (c : Char) (z : List Char) : stripLit [c] (c :: z) = some z := by
  simp [stripLit]

theorem stripLit_qc (z : List Char) : stripLit ['"', ','] ('"' :: ',' :: z) = some z := rfl

theorem matchAt_buildFragment (w1 w2 w3 w4 w5 w6 nm ty body tail : List Char)
    (hw1 : ∀ c ∈ w1, isPySpace c = true) (hw2 : ∀ c ∈ w2, isPySpace c = true)
    (hw3 : ∀ c ∈ w3, isPySpace c = true) (hw4 : ∀ c ∈ w4, isPySpace c = true)
    (hw5 : ∀ c ∈ w5, isPySpace c = true) (hw6 : ∀ c ∈ w6, isPySpace c = true)
    (hnm : nm ≠ []) (hnmq : ∀ c ∈ nm, c ≠ '"')
    (hty : ty ≠ []) (htyq : ∀ c ∈ ty, c ≠ '"')
    (hb : body ≠ []) (hbp : ∀ c ∈ body, c ≠ ')') :
    matchAt (buildFragment w1 w2 w3 w4 w5 w6 nm ty body tail) =
      some ⟨nm, ty, '(' :: body ++ [')'], tail⟩ := by
  simp only [matchAt, buildFragment]
  rw [stripLit_single '(' _]
  simp only [Option.some_bind]
  rw [dropSpaces_spaces w1 _ hw1, dropSpaces_nameKey, stripLit_self nameKey _]
  simp only [Option.some_bind]
  rw [dropSpaces_spaces w2 _ hw2, dropSpaces_quote, stripLit_single '"' _]
  simp only [Option.some_bind]
  rw [matchPlus_app '"' nm _ hnm hnmq]
  simp only [Option.some_bind]
  rw [stripLit_qc]
  simp only [Option.some_bind]
  rw [dropSpaces_spaces w3 _ hw3, dropSpaces_tyKey, stripLit_self tyKey _]
  simp only [Option.some_bind]
  rw [dropSpaces_spaces w4 _ hw4, dropSpaces_quote, stripLit_single '"' _]
  simp only [Option.some_bind]
  rw [matchPlus_app '"' ty _ hty htyq]
  simp only [Option.some_bind]
  rw [stripLit_qc]
  simp only [Option.some_bind]
  rw [dropSpaces_spaces w5 _ hw5, dropSpaces_innerKey, stripLit_self innerKey _]
  simp only [Option.some_bind]
  rw [dropSpaces_spaces w6 _ hw6, dropSpaces_open, stripLit_single '(' _]
  simp only [Option.some_bind]
  rw [matchPlus_app ')' body _ hb hbp]
  simp only [Option.some_bind]
  rw [stripLit_single ')' _]
  simp only [Option.some_bind]

/-! ### The claims -/

/-- C1: for the input text `(name: "A", ty: "T", inner: (x: 1))`, `transform`
returns a text that contains `name: "A"`, a mapping opened under the key
`inner`, and inside it the key `"T"` whose value is the literal text
`(x: 1)`, per the replacement template; the first conjunct gives the full
output exactly. -/
theorem c1_fragment_round_trip :
    transform "(name: \"A\", ty: \"T\", inner: (x: 1))" =
      "(\n            name: \"A\",\n            inner: \x7b\n                \"T\": (x: 1)\n            \x7d)" ∧
    "name: \"A\"".toList <:+:
      (transform "(name: \"A\", ty: \"T\", inner: (x: 1))").toList ∧
    "inner: \x7b".toList <:+:
      (transform "(name: \"A\", ty: \"T\", inner: (x: 1))").toList ∧
    "\"T\": (x: 1)".toList <:+:
      (transform "(name: \"A\", ty: \"T\", inner: (x: 1))").toList := by
  decide

/-- C2: for every input text, the scan decomposes the input into unmatched
segments, matched spans and an unmatched tail; the output is the same
decomposition with each matched span replaced and everything else (in its
original order) verbatim; every span really is a match of the pattern. -/
theorem c2_unmatched_text_preserved (s : List Char) :
    ∃ (segs : List Seg) (tail : List Char),
      (segs.map fun g => g.pre ++ g.span).flatten ++ tail = s ∧
      (segs.map fun g => g.pre ++ replaceNode g.m).flatten ++ tail = subScan s ∧
      ∀ g ∈ segs, ∃ r, matchAt (g.span ++ r) = some ⟨g.m.name, g.m.ty, g.m.inner, r⟩ := by
  obtain ⟨j1, j2, j3⟩ := scan_spec s.length s le_rfl
  exact ⟨(scanDecompF s.length s).1, (scanDecompF s.length s).2, j1, j2, j3⟩

/-- C3: for every text containing no substring matching the fragment pattern,
`transform` returns it unchanged (and, being a total function, raises no
error on it). -/
theorem c3_no_match_unchanged (s : String) (h : hasMatch s.toList = false) :
    transform s = s := by
  show (subScan s.toList).asString = s
  rw [subScan_no_match _ h]
  cases s
  rfl

theorem c3_no_match_unchanged_witness :
    hasMatch "(name: \"unterminated, ty: \"T\", inner: (x: 1))".toList = false ∧
    transform "(name: \"unterminated, ty: \"T\", inner: (x: 1))" =
      "(name: \"unterminated, ty: \"T\", inner: (x: 1))" :=
  ⟨by decide, c3_no_match_unchanged "(name: \"unterminated, ty: \"T\", inner: (x: 1))" (by decide)⟩

/-- C4: when the inner content itself contains a parenthesis, the match stops
at the first `)`: on `inner: (a: (b: 1))` the third capture is the literal
`(a: (b: 1)` closed at the first `)`, leaving `))` outside the match -
literal regular-expression semantics, not balanced-parenthesis matching. -/
theorem c4_inner_stops_at_first_close :
    matchAt "(name: \"A\", ty: \"T\", inner: (a: (b: 1)))".toList =
      some ⟨"A".toList, "T".toList, "(a: (b: 1)".toList, "))".toList⟩ ∧
    (∀ m : NodeMatch,
      matchAt "(name: \"A\", ty: \"T\", inner: (a: (b: 1)))".toList = some m →
      m.inner ≠ "(a: (b: 1))".toList) ∧
    transform "(name: \"A\", ty: \"T\", inner: (a: (b: 1)))" =
      "(\n            name: \"A\",\n            inner: \x7b\n                \"T\": (a: (b: 1)\n            \x7d))" := by
  refine ⟨by decide, ?_, by decide⟩
  intro m hm
  have : m = ⟨"A".toList, "T".toList, "(a: (b: 1)".toList, "))".toList⟩ := by
    have h0 :
        matchAt "(name: \"A\", ty: \"T\", inner: (a: (b: 1)))".toList =
          some ⟨"A".toList, "T".toList, "(a: (b: 1)".toList, "))".toList⟩ := by decide
    rw [h0] at hm
    exact (Option.some.injEq _ _ ▸ hm).symm
  subst this
  decide

/-- C5: for every matched fragment, the replacement is the fixed template
text around the three captures; the fixed text contains no `)` at all, one
`(` (the reopened group), one `\x7b` and one `\x7d` (the mapping is closed,
the group is not); and a `)` standing right after the matched span is kept
verbatim by the continuing scan, since no match can start at `)`. -/
theorem c5_replacement_unclosed (s : List Char) (m : NodeMatch)
    (h : matchAt s = some m) :
    replaceNode m = tplA ++ m.name ++ tplB ++ m.ty ++ tplC ++ m.inner ++ tplD ∧
    (tplA.count ')' = 0 ∧ tplB.count ')' = 0 ∧ tplC.count ')' = 0 ∧
      tplD.count ')' = 0 ∧ tplA.count '(' = 1 ∧
      (tplB ++ tplC ++ tplD).count '(' = 0 ∧
      (tplA ++ tplB ++ tplC ++ tplD).count '\x7b' = 1 ∧
      (tplA ++ tplB ++ tplC ++ tplD).count '\x7d' = 1) ∧
    m.inner.count ')' = 1 ∧
    ∀ u, m.rest = ')' :: u → subScan m.rest = ')' :: subScan u := by
  obtain ⟨-, -, -, -, -, -, body, -, hb2, hb3⟩ := matchAt_spec h
  refine ⟨rfl, by decide, ?_, ?_⟩
  · have hz : body.count ')' = 0 :=
      List.count_eq_zero.mpr fun hmem => hb2 ')' hmem rfl
    simp [hb3, List.count_cons, List.count_append, hz]
  · intro u hu
    rw [hu, subScan_cons_none (matchAt_none_of_head u (by decide))]

theorem c5_replacement_unclosed_witness :
    replaceNode ⟨"A".toList, "T".toList, "(x: 1)".toList, ")".toList⟩ =
      tplA ++ "A".toList ++ tplB ++ "T".toList ++ tplC ++ "(x: 1)".toList ++ tplD ∧
    subScan ")".toList = ')' :: subScan [] := by
  have h := c5_replacement_unclosed "(name: \"A\", ty: \"T\", inner: (x: 1))".toList
    ⟨"A".toList, "T".toList, "(x: 1)".toList, ")".toList⟩ (by decide)
  exact ⟨h.1, h.2.2.2 [] rfl⟩

/-- C6: on an input directory holding exactly the files `a.ron`, `b.ron` and
`c.txt`, the batch writes transformed `a.ron` and `b.ron` and no `c.txt`,
prints one `Transformed <filename>` line per processed file, and the entry
point ends with the line `Transformation complete.`. -/
theorem c6_directory_batch (ca cb cc : String) :
    mainRun (some [DirEntry.file "a.ron" ca, DirEntry.file "b.ron" cb,
        DirEntry.file "c.txt" cc]) false =
      ⟨true, true, [("a.ron", transform ca), ("b.ron", transform cb)],
        ["Transformed a.ron", "Transformed b.ron", "Transformation complete."],
        none⟩ ∧
    ∀ x, ("c.txt", x) ∉ [("a.ron", transform ca), ("b.ron", transform cb)] := by
  constructor
  · rfl
  · intro x hx
    rcases List.mem_cons.mp hx with h | h
    · exact (show ("c.txt" : String) ≠ "a.ron" by decide) (congrArg Prod.fst h)
    · rcases List.mem_cons.mp h with h' | h'
      · exact (show ("c.txt" : String) ≠ "b.ron" by decide) (congrArg Prod.fst h')
      · cases h'

/-- C7: running the batch against a missing input directory fails with an I/O
error; the output directory was already created (by the step preceding the
enumeration) but holds no file, and nothing was printed. -/
theorem c7_missing_input_dir :
    process_directory none false =
      ⟨true, true, [], [], some IOErr.fileNotFound⟩ ∧
    ∀ b : Bool, (process_directory none b).err = some IOErr.fileNotFound ∧
      (process_directory none b).outputs = [] ∧
      (process_directory none b).printed = [] ∧
      (process_directory none b).outputDirExists = true := by
  refine ⟨rfl, ?_⟩
  intro b
  cases b <;> exact ⟨rfl, rfl, rfl, rfl⟩

/-- C8 counterexample: a subdirectory whose name ends in `.ron` is NOT
silently skipped - the batch aborts with an `IsADirectoryError`, refuting the
claim that every subdirectory is skipped with no error. -/
theorem c8_ron_subdir_errors :
    process_directory (some [DirEntry.subdir "d.ron"]) true =
      ⟨true, false, [], [], some IOErr.isADirectory⟩ ∧
    (process_directory (some [DirEntry.subdir "d.ron"]) true).err ≠ none := by
  decide

/-- C8 (amended): entries whose names do not end in `.ron` are silently
skipped whatever their kind; the `.ron` filter is purely by name, so a
subdirectory named `*.ron` aborts the batch with an `IsADirectoryError` and a
symbolic link named `*.ron` resolving to a file is processed like a file. -/
theorem c8_skip_amended :
    (∀ (e : DirEntry) (es : List DirEntry), endswith e.name ".ron" = false →
      processEntries (e :: es) = processEntries es) ∧
    (∀ (n : String) (es : List DirEntry), endswith n ".ron" = true →
      processEntries (DirEntry.subdir n :: es) = ([], [], some IOErr.isADirectory)) ∧
    (∀ (n c : String) (es : List DirEntry), endswith n ".ron" = true →
      processEntries (DirEntry.symlinkToFile n c :: es) =
        ((n, transform c) :: (processEntries es).1,
         ("Transformed " ++ n) :: (processEntries es).2.1,
         (processEntries es).2.2)) := by
  refine ⟨?_, ?_, ?_⟩
  · intro e es h
    simp [processEntries, h]
  · intro n es h
    simp [processEntries, DirEntry.name, h, readEntry]
  · intro n c es h
    simp [processEntries, DirEntry.name, h, readEntry]

theorem c8_skip_amended_witness :
    processEntries [DirEntry.file "c.txt" "hello"] = processEntries [] ∧
    processEntries [DirEntry.subdir "x.ron"] = ([], [], some IOErr.isADirectory) ∧
    processEntries [DirEntry.symlinkToFile "l.ron" "(x)"] =
      (("l.ron", transform "(x)") :: (processEntries []).1,
       ("Transformed " ++ "l.ron") :: (processEntries []).2.1,
       (processEntries []).2.2) :=
  ⟨c8_skip_amended.1 (DirEntry.file "c.txt" "hello") [] (by decide),
   c8_skip_amended.2.1 "x.ron" [] (by decide),
   c8_skip_amended.2.2 "l.ron" "(x)" [] (by decide)⟩

/-- C9: every successful match has a nonempty `name`, a nonempty `ty` and a
nonempty inner body (each capture requires at least one character), and the
three fragments with an empty captured piece - `name: ""`, `ty: ""`,
`inner: ()` - match nowhere and pass through `transform` unchanged. -/
theorem c9_empty_captures_no_match :
    (∀ (s : List Char) (m : NodeMatch), matchAt s = some m →
      m.name ≠ [] ∧ m.ty ≠ [] ∧
      ∃ body, body ≠ [] ∧ m.inner = '(' :: body ++ [')']) ∧
    hasMatch "(name: \"\", ty: \"T\", inner: (x: 1))".toList = false ∧
    hasMatch "(name: \"A\", ty: \"\", inner: (x: 1))".toList = false ∧
    hasMatch "(name: \"A\", ty: \"T\", inner: ())".toList = false ∧
    transform "(name: \"\", ty: \"T\", inner: (x: 1))" =
      "(name: \"\", ty: \"T\", inner: (x: 1))" ∧
    transform "(name: \"A\", ty: \"\", inner: (x: 1))" =
      "(name: \"A\", ty: \"\", inner: (x: 1))" ∧
    transform "(name: \"A\", ty: \"T\", inner: ())" =
      "(name: \"A\", ty: \"T\", inner: ())" := by
  refine ⟨?_, by decide, by decide, by decide, by decide, by decide, by decide⟩
  intro s m h
  obtain ⟨-, -, h1, -, h2, -, body, hb1, -, hb3⟩ := matchAt_spec h
  exact ⟨h1, h2, body, hb1, hb3⟩

theorem c9_empty_captures_no_match_witness :
    "A".toList ≠ ([] : List Char) ∧ "T".toList ≠ ([] : List Char) ∧
    ∃ body, body ≠ [] ∧ "(x: 1)".toList = '(' :: body ++ [')'] :=
  c9_empty_captures_no_match.1 "(name: \"A\", ty: \"T\", inner: (x: 1))".toList
    ⟨"A".toList, "T".toList, "(x: 1)".toList, ")".toList⟩ (by decide)

/-- C10: matching is whitespace-tolerant: with arbitrary runs of whitespace
(possibly empty, newlines included) in each of the six `\s*` slots - after
the opening `(`, after each comma, and after each of the `name:`, `ty:` and
`inner:` keys - a fragment still matches with the same three captures, and
the scan rewrites it to the replacement. -/
theorem c10_whitespace_tolerant (w1 w2 w3 w4 w5 w6 nm ty body tail : List Char)
    (hw1 : ∀ c ∈ w1, isPySpace c = true) (hw2 : ∀ c ∈ w2, isPySpace c = true)
    (hw3 : ∀ c ∈ w3, isPySpace c = true) (hw4 : ∀ c ∈ w4, isPySpace c = true)
    (hw5 : ∀ c ∈ w5, isPySpace c = true) (hw6 : ∀ c ∈ w6, isPySpace c = true)
    (hnm : nm ≠ []) (hnmq : ∀ c ∈ nm, c ≠ '"')
    (hty : ty ≠ []) (htyq : ∀ c ∈ ty, c ≠ '"')
    (hb : body ≠ []) (hbp : ∀ c ∈ body, c ≠ ')') :
    matchAt (buildFragment w1 w2 w3 w4 w5 w6 nm ty body tail) =
      some ⟨nm, ty, '(' :: body ++ [')'], tail⟩ ∧
    subScan (buildFragment w1 w2 w3 w4 w5 w6 nm ty body tail) =
      replaceNode ⟨nm, ty, '(' :: body ++ [')'], tail⟩ ++ subScan tail := by
  have hmain := matchAt_buildFragment w1 w2 w3 w4 w5 w6 nm ty body tail
    hw1 hw2 hw3 hw4 hw5 hw6 hnm hnmq hty htyq hb hbp
  refine ⟨hmain, ?_⟩
  exact subScan_cons_some hmain

theorem c10_whitespace_tolerant_witness :
    matchAt (buildFragment ['\n', ' '] [] ['\t'] [' ', ' '] ['\n'] []
        "A".toList "T".toList "x: 1".toList ")".toList) =
      some ⟨"A".toList, "T".toList, '(' :: "x: 1".toList ++ [')'], ")".toList⟩ ∧
    subScan (buildFragment ['\n', ' '] [] ['\t'] [' ', ' '] ['\n'] []
        "A".toList "T".toList "x: 1".toList ")".toList) =
      replaceNode ⟨"A".toList, "T".toList, '(' :: "x: 1".toList ++ [')'], ")".toList⟩ ++
        subScan ")".toList :=
  c10_whitespace_tolerant ['\n', ' '] [] ['\t'] [' ', ' '] ['\n'] []
    "A".toList "T".toList "x: 1".toList ")".toList
    (by decide) (by decide) (by decide) (by decide) (by decide) (by decide)
    (by decide) (by decide) (by decide) (by decide) (by decide) (by decide)

end Conv
